import Mathlib

/-!
Verification of the hierarchy reconstruction engine of the ddc-automation
repository.  The two dialect implementations
(`fix_hierarchy_bruteforce_ranges.py` for segmented numeric codes, called
Dialect A below, and `fix_hierarchy_bruteforce_ranges_tables.py` for
prefixed digit codes, called Dialect B) are embedded shallowly: codes are
lists of characters, Python string primitives are modelled by executable
Lean functions, and the per-file processing pipeline is modelled as a pure
function over lists of entry records.
-/

/-- Codes are immutable strings, modelled as lists of characters. -/
abbrev Str : Type := List Char

/-- Conversion from a Lean string literal to the code representation. -/
def str (s : String) : Str := s.toList

/-! ### Python string primitives -/

/-- Python `s.split(sep)` for a one-character separator: splits on every
occurrence of `sep`, keeping empty pieces, and returns `[s]` (one piece)
when `sep` does not occur. -/
def splitOnChar (sep : Char) : Str → List Str
  | [] => [[]]
  | c :: cs =>
    match splitOnChar sep cs with
    | [] => [[]]
    | p :: ps => if c = sep then [] :: p :: ps else (c :: p) :: ps

/-- Python `sep.join(parts)` for a one-character separator. -/
def interc (sep : Char) : List Str → Str
  | [] => []
  | [p] => p
  | p :: q :: ps => p ++ sep :: interc sep (q :: ps)

/-- Python `s.rsplit(sep, 1)[0]` under the guard `sep in s`: everything
before the last occurrence of the separator (the code only evaluates this
behind such a guard). -/
def rsplitPref (sep : Char) (s : Str) : Str :=
  interc sep ((splitOnChar sep s).dropLast)

/-- Python `s.rsplit(sep, 1)[1]` under the guard `sep in s`: everything
after the last occurrence of the separator. -/
def lastSeg (sep : Char) (s : Str) : Str :=
  (splitOnChar sep s).getLastD []

/-- Python `s.split(sep, 1)[0]`: everything before the first occurrence of
the separator (the whole string when the separator is absent). -/
def splitFirstPref (sep : Char) (s : Str) : Str :=
  s.takeWhile (fun c => c ≠ sep)

/-- Value of a list of decimal digits. -/
def digitsVal (s : Str) : Nat :=
  s.foldl (fun a c => a * 10 + (c.toNat - ('0').toNat)) 0

/-- Python `s.isdigit()` (restricted to ASCII digits, the only digits that
occur in classification codes). -/
def pyIsDigit (s : Str) : Bool :=
  if s = [] then false else s.all Char.isDigit

/-- Python `int(s)`: an optional sign followed by at least one digit;
anything else raises, modelled as `none`. -/
def pyInt (s : Str) : Option Int :=
  match s with
  | '-' :: rest => if pyIsDigit rest then some (-(digitsVal rest : Int)) else none
  | '+' :: rest => if pyIsDigit rest then some (digitsVal rest : Int) else none
  | _ => if pyIsDigit s then some (digitsVal s : Int) else none

/-- Python `s.lstrip('-')`. -/
def lstripDash (s : Str) : Str := s.dropWhile (fun c => c = '-')

/-- Python `'--' in s`: substring test for the doubled dash marker. -/
def hasDD : Str → Bool
  | '-' :: '-' :: _ => true
  | _ :: rest => hasDD rest
  | [] => false

/-- Python `s.split('--')`: left-to-right, non-overlapping split on the
two-character separator. -/
def splitOnDD : Str → List Str
  | '-' :: '-' :: rest => [] :: splitOnDD rest
  | c :: rest =>
    match splitOnDD rest with
    | [] => [[]]
    | p :: ps => (c :: p) :: ps
  | [] => [[]]

/-- The descending list `[n, n-1, ..., 1]`, the index sequence of the
Python loop `for i in range(n, 0, -1)`. -/
def downFrom1 : Nat → List Nat
  | 0 => []
  | n + 1 => (n + 1) :: downFrom1 n

/-- Python string comparison (`sorted`) on code strings: lexicographic by
character code point. -/
def strLeB : Str → Str → Bool
  | [], _ => true
  | _ :: _, [] => false
  | a :: as, b :: bs =>
    if a.toNat < b.toNat then true
    else if b.toNat < a.toNat then false
    else strLeB as bs

/-- The ordering used to model Python's `sorted` on code lists. -/
def codeLe (a b : Str) : Prop := strLeB a b = true

instance : DecidableRel codeLe := fun a b =>
  inferInstanceAs (Decidable (strLeB a b = true))

/-! ### Lemmas about the string primitives -/

theorem splitOnChar_ne_nil (sep : Char) (s : Str) : splitOnChar sep s ≠ [] := by
  cases s with
  | nil => simp [splitOnChar]
  | cons c cs =>
    simp only [splitOnChar]
    cases h : splitOnChar sep cs with
    | nil => simp
    | cons p ps =>
      by_cases hc : c = sep <;> simp [hc]

theorem interc_splitOnChar (sep : Char) (s : Str) :
    interc sep (splitOnChar sep s) = s := by
  induction s with
  | nil => rfl
  | cons c cs ih =>
    simp only [splitOnChar]
    cases h : splitOnChar sep cs with
    | nil => exact absurd h (splitOnChar_ne_nil sep cs)
    | cons p ps =>
      rw [h] at ih
      by_cases hc : c = sep
      · subst hc
        simp only [if_pos rfl]
        cases ps with
        | nil => simpa [interc] using congrArg (fun t => c :: t) ih
        | cons q qs => simpa [interc] using congrArg (fun t => c :: t) ih
      · simp only [if_neg hc]
        cases ps with
        | nil => simpa [interc] using congrArg (fun t => c :: t) ih
        | cons q qs => simpa [interc] using congrArg (fun t => c :: t) ih

theorem splitOnChar_of_not_mem {sep : Char} {s : Str} (h : sep ∉ s) :
    splitOnChar sep s = [s] := by
  induction s with
  | nil => rfl
  | cons c cs ih =>
    have hc : c ≠ sep := fun hcc => h (hcc ▸ List.mem_cons_self c cs)
    have hcs : sep ∉ cs := fun hm => h (List.mem_cons_of_mem c hm)
    simp [splitOnChar, ih hcs, hc]

theorem splitOnChar_append (sep : Char) (a b : Str) :
    splitOnChar sep (a ++ sep :: b) =
      splitOnChar sep a ++ splitOnChar sep b := by
  induction a with
  | nil =>
    simp only [List.nil_append, splitOnChar]
    cases h : splitOnChar sep b with
    | nil => exact absurd h (splitOnChar_ne_nil sep b)
    | cons p ps => simp
  | cons c cs ih =>
    simp only [List.cons_append, splitOnChar, List.append_eq, ih]
    cases h : splitOnChar sep cs with
    | nil => exact absurd h (splitOnChar_ne_nil sep cs)
    | cons p ps =>
      by_cases hc : c = sep <;> simp [hc, List.cons_append]

theorem mem_of_two_le_splitOnChar {sep : Char} {s : Str}
    (h : 2 ≤ (splitOnChar sep s).length) : sep ∈ s := by
  by_contra hn
  rw [splitOnChar_of_not_mem hn] at h
  simp at h

theorem two_le_splitOnChar_of_mem {sep : Char} {s : Str} (h : sep ∈ s) :
    2 ≤ (splitOnChar sep s).length := by
  induction s with
  | nil => simp at h
  | cons c cs ih =>
    simp only [splitOnChar]
    cases hs : splitOnChar sep cs with
    | nil => exact absurd hs (splitOnChar_ne_nil sep cs)
    | cons p ps =>
      by_cases hc : c = sep
      · simp [hc]
      · have hm : sep ∈ cs := by
          rcases List.mem_cons.mp h with h1 | h1
          · exact absurd h1.symm hc
          · exact h1
        have := ih hm
        rw [hs] at this
        simp only [if_neg hc]
        simpa using this

/-- Decomposition of a string at the last occurrence of a separator. -/
theorem exists_last_split {sep : Char} {s : Str} (h : sep ∈ s) :
    ∃ a b : Str, s = a ++ sep :: b ∧ sep ∉ b := by
  induction s with
  | nil => simp at h
  | cons c cs ih =>
    by_cases hm : sep ∈ cs
    · obtain ⟨a, b, hab, hnb⟩ := ih hm
      exact ⟨c :: a, b, by simp [hab], hnb⟩
    · have hc : c = sep := by
        rcases List.mem_cons.mp h with h1 | h1
        · exact h1.symm
        · exact absurd h1 hm
      exact ⟨[], cs, by simp [hc], hm⟩

theorem rsplitPref_last_split {sep : Char} {a b : Str} (hnb : sep ∉ b) :
    rsplitPref sep (a ++ sep :: b) = a := by
  unfold rsplitPref
  rw [splitOnChar_append, splitOnChar_of_not_mem hnb, List.dropLast_concat,
    interc_splitOnChar]

theorem lastSeg_last_split {sep : Char} {a b : Str} (hnb : sep ∉ b) :
    lastSeg sep (a ++ sep :: b) = b := by
  unfold lastSeg
  rw [splitOnChar_append, splitOnChar_of_not_mem hnb]
  simp

theorem interc_append_of_ne_nil (sep : Char) {xs ys : List Str}
    (hx : xs ≠ []) (hy : ys ≠ []) :
    interc sep (xs ++ ys) = interc sep xs ++ sep :: interc sep ys := by
  induction xs with
  | nil => exact absurd rfl hx
  | cons x xs ih =>
    cases xs with
    | nil =>
      cases ys with
      | nil => exact absurd rfl hy
      | cons y ys => simp [interc]
    | cons x2 xs2 =>
      have h1 : interc sep ((x :: x2 :: xs2) ++ ys) =
          x ++ sep :: interc sep ((x2 :: xs2) ++ ys) := rfl
      rw [h1, ih (by simp)]
      rw [show interc sep (x :: x2 :: xs2) = x ++ sep :: interc sep (x2 :: xs2) from rfl]
      simp [List.append_assoc]

theorem length_interc_lt (sep : Char) {xs ys : List Str}
    (hx : xs ≠ []) (hy : ys ≠ []) :
    (interc sep xs).length < (interc sep (xs ++ ys)).length := by
  rw [interc_append_of_ne_nil sep hx hy]
  simp only [List.length_append, List.length_cons]
  omega

/-! ### Dialect A: segmented numeric codes (`fix_hierarchy_bruteforce_ranges.py`)

Codes are dot-separated numeric segments; a single dash marks a range. -/

/-- Hierarchy record written by Dialect A: the literal two-field dict
`{'broader': ..., 'narrower': ...}`. -/
structure HierA where
  broader : Option Str
  narrower : List Str
deriving DecidableEq

/-- Dialect A entry record: identifying fields `id` and the notation
field, the added `bfCode` and `hierarchy` fields (absent = `none`), and an
opaque payload `extra` standing for all other descriptive fields. -/
structure EntryA where
  idv : Option Str
  notat : Option Str
  bfCode : Option Str
  hierarchy : Option HierA
  extra : Nat
deriving DecidableEq

/-- Matching of the pattern `^Volume\d+-(.+)$` (case-insensitive on the
word `Volume`), returning the capture group: the maximal digit run after
the prefix must be non-empty and be followed by a dash and a non-empty
tail. -/
def idMatch (s : Str) : Option Str :=
  if (s.take 6).map Char.toLower = str "volume" then
    let rest := s.drop 6
    let ds := rest.takeWhile Char.isDigit
    let tl := rest.dropWhile Char.isDigit
    if ds ≠ [] then
      match tl with
      | '-' :: g => if g ≠ [] then some g else none
      | _ => none
    else none
  else none

/-- Dialect A `extract_code`: match the id against the volume pattern;
on failure fall back to the notation field; Python falsy values (`None`
and the empty string) collapse to the empty string. -/
def extract_code (e : EntryA) : Str :=
  let idv := e.idv.getD []
  match idMatch idv with
  | some g => g
  | none => e.notat.getD []

/-- Dialect A `split_range`: split on the dash; succeed only when that
yields exactly two parts. -/
def split_rangeA (code : Str) : Option (Str × Str) :=
  if '-' ∈ code then
    match splitOnChar '-' code with
    | [a, b] => some (a, b)
    | _ => none
  else none

/-- Dialect A immediate-child test from `immediate_children_simple`:
both codes dash-free, the candidate extends the parent by a dot and
exactly one further non-empty segment. -/
def isSimpleChildA (c d : Str) : Bool :=
  if '-' ∈ c then false
  else if '-' ∈ d then false
  else if d.take (c.length + 1) = c ++ ['.'] then
    let rest := d.drop (c.length + 1)
    if rest = [] then false
    else if '.' ∈ rest then false
    else true
  else false

/-- Dialect A `expand_range_children` membership test for one candidate
simple code `d`: integer ranges compare whole-code integer values, dotted
ranges require the shared prefix and one extra in-bounds segment. -/
def expandMemA (rc d : Str) : Bool :=
  match split_rangeA rc with
  | none => false
  | some (l, r) =>
    if '.' ∉ l ∧ '.' ∉ r then
      match pyInt l, pyInt r with
      | some li, some ri =>
        if '-' ∈ d then false
        else if '.' ∈ d then false
        else match pyInt d with
          | some v => decide (li ≤ v ∧ v ≤ ri)
          | none => false
      | _, _ => false
    else if '.' ∈ l ∧ '.' ∈ r then
      let lp := rsplitPref '.' l
      let rp := rsplitPref '.' r
      if lp ≠ rp then false
      else match pyInt (lastSeg '.' l), pyInt (lastSeg '.' r) with
        | some li, some ri =>
          if d.take (lp.length + 1) ≠ lp ++ ['.'] then false
          else if '-' ∈ d then false
          else
            let rest := d.drop (lp.length + 1)
            if rest = [] then false
            else if '.' ∈ rest then false
            else match pyInt rest with
              | some vi => decide (li ≤ vi ∧ vi ≤ ri)
              | none => false
        | _, _ => false
    else false

/-- Dialect A `compute_broader`. -/
def compute_broaderA (code : Str) (S : List Str) : Option Str :=
  if '-' ∈ code then
    match
      (if '.' ∈ code then
        match split_rangeA code with
        | some (l, _) =>
          if l ≠ [] ∧ '.' ∈ l then
            if rsplitPref '.' l ∈ S then some (rsplitPref '.' l) else none
          else none
        | none => none
      else none) with
    | some p => some p
    | none =>
      match split_rangeA code with
      | some (l, _) => if l ≠ [] ∧ l ∈ S then some l else none
      | none => none
  else
    if '.' ∉ code then none
    else
      (downFrom1 ((splitOnChar '.' code).length - 1)).findSome? fun i =>
        if interc '.' ((splitOnChar '.' code).take i) ∈ S then
          some (interc '.' ((splitOnChar '.' code).take i))
        else none

/-- Dialect A `range_parent`: the simple code under which a range code is
attached as a child. -/
def range_parentA (code : Str) (S : List Str) : Option Str :=
  if '-' ∉ code then none
  else
    match split_rangeA code with
    | none => none
    | some (l, _) =>
      if '.' ∈ l then
        let baseRoot := splitFirstPref '.' l
        if baseRoot ∈ S then some baseRoot else none
      else
        if l ∈ S then some l else none

/-- The simple (dash-free) codes of an index. -/
def simpleA (codes : List Str) : List Str :=
  codes.filter (fun x => decide ('-' ∉ x))

/-- Membership of `d` in the combined child map entry of `c`: immediate
simple children, range expansion, and range attachment. -/
def childMemA (codes : List Str) (c d : Str) : Bool :=
  isSimpleChildA c d || (if '-' ∈ c then expandMemA c d else false) ||
    (if range_parentA d (simpleA codes) = some c then true else false)

/-- Sorted, deduplicated narrower list for a code of the index. -/
def narrowerA (codes : List Str) (c : Str) : List Str :=
  List.insertionSort codeLe (codes.filter (fun d => childMemA codes c d))

/-- The distinct non-empty codes of a file, in first-appearance order
(the keys of `code_to_entries`). -/
def codesOf (es : List EntryA) : List Str :=
  ((es.map extract_code).filter (fun c => decide (c ≠ []))).dedup

/-- Per-entry step of Dialect A `process_file`: stamp the extracted code
onto the entry and, when the code is truthy, overwrite its hierarchy
field with the computed broader/narrower pair. -/
def stepA (codes : List Str) (e : EntryA) : EntryA :=
  let c := extract_code e
  if c = [] then { e with bfCode := some c }
  else
    { e with
      bfCode := some c,
      hierarchy := some ⟨compute_broaderA c (simpleA codes), narrowerA codes c⟩ }

/-- Dialect A `process_file` restricted to its in-memory transform on the
entry list (file IO and reporting are outside the model). -/
def processA (es : List EntryA) : List EntryA :=
  es.map (stepA (codesOf es))

/-! ### Dialect B: prefixed digit codes (`fix_hierarchy_bruteforce_ranges_tables.py`)

Codes start with a dash marker followed by digits; a doubled dash marks a
range. -/

/-- Hierarchy record of a Dialect B entry: the script only overwrites the
`narrower` and `broader` keys of an existing hierarchy dict (creating an
empty one when absent), so any other keys are modelled by `extra`. -/
structure HierB where
  broader : Option Str
  narrower : List Str
  extra : Nat
deriving DecidableEq

/-- Dialect B entry record.  `bfCode` is `some none` when the script has
stored a Python `None` in the field, and `none` while the key is absent. -/
structure EntryB where
  idv : Str
  notat : Option Str
  bfCode : Option (Option Str)
  hierarchy : Option HierB
  extra : Nat
deriving DecidableEq

/-- Python `s.split(sep, 1)[1]`: everything after the first occurrence of
the separator. -/
def afterFirst (sep : Char) (s : Str) : Str :=
  (s.dropWhile (fun c => c ≠ sep)).drop 1

/-- Dialect B `extract_code`: the notation field when truthy, else the
`T...:...` id fallback, else `None`. -/
def extract_codeB (e : EntryB) : Option Str :=
  match e.notat with
  | some n =>
    if n ≠ [] then some n
    else
      match e.idv with
      | 'T' :: _ => if ':' ∈ e.idv then some (afterFirst ':' e.idv) else none
      | _ => none
  | none =>
    match e.idv with
    | 'T' :: _ => if ':' ∈ e.idv then some (afterFirst ':' e.idv) else none
    | _ => none

/-- Dialect B `split_range`: split on the doubled dash; succeed only when
that yields exactly two parts. -/
def split_rangeB (code : Str) : Option (Str × Str) :=
  if hasDD code then
    match splitOnDD code with
    | [a, b] => some (a, b)
    | _ => none
  else none

/-- Dialect B immediate-child test from `immediate_children_simple`: the
candidate strictly extends the parent by an all-digit suffix of at most
three characters. -/
def isSimpleChildB (c d : Str) : Bool :=
  if hasDD c then false
  else if d = c then false
  else if hasDD d then false
  else if d.take c.length = c ∧ c.length < d.length then
    let rest := d.drop c.length
    if pyIsDigit rest ∧ rest.length ≤ 3 then true else false
  else false

/-- Dialect B `expand_range_children` membership test for one candidate
simple code `d`: both bounds and the candidate are compared as integers
after stripping leading dashes. -/
def expandMemB (rc d : Str) : Bool :=
  match split_rangeB rc with
  | none => false
  | some (l, r) =>
    match pyInt (lstripDash l), pyInt (lstripDash r) with
    | some li, some ri =>
      if hasDD d then false
      else
        let dn := lstripDash d
        if pyIsDigit dn then
          match pyInt dn with
          | some v => decide (li ≤ v ∧ v ≤ ri)
          | none => false
        else false
    | _, _ => false

/-- Truncation search shared by the Dialect B parent rules: candidates are
the proper non-empty prefixes of `s`, longest first. -/
def truncSearchB (s : Str) (S : List Str) : Option Str :=
  (downFrom1 (s.length - 1)).findSome? fun i =>
    if s.take i ∈ S then some (s.take i) else none

/-- Dialect B `compute_broader`. -/
def compute_broaderB (code : Str) (S : List Str) : Option Str :=
  if hasDD code then
    match split_rangeB code with
    | some (l, _) => if l ≠ [] then truncSearchB l S else none
    | none => none
  else
    if code.length ≤ 1 then none
    else truncSearchB code S

/-- Dialect B `range_parent`. -/
def range_parentB (code : Str) (S : List Str) : Option Str :=
  if hasDD code then
    match split_rangeB code with
    | some (l, _) => truncSearchB l S
    | none => none
  else none

/-- The simple (doubled-dash-free) codes of a Dialect B index. -/
def simpleB (codes : List Str) : List Str :=
  codes.filter (fun x => !hasDD x)

/-- Membership of `d` in the combined Dialect B child map entry of `c`. -/
def childMemB (codes : List Str) (c d : Str) : Bool :=
  isSimpleChildB c d || (if hasDD c then expandMemB c d else false) ||
    (if range_parentB d (simpleB codes) = some c then true else false)

/-- Sorted, deduplicated Dialect B narrower list. -/
def narrowerB (codes : List Str) (c : Str) : List Str :=
  List.insertionSort codeLe (codes.filter (fun d => childMemB codes c d))

/-- The distinct truthy codes of a Dialect B file. -/
def codesOfB (es : List EntryB) : List Str :=
  ((es.filterMap extract_codeB).filter (fun c => decide (c ≠ []))).dedup

/-- Update of the hierarchy dict performed by the tables script: create
the dict when absent, then overwrite its two hierarchy keys. -/
def updateHier (h : Option HierB) (b : Option Str) (n : List Str) : Option HierB :=
  match h with
  | none => some ⟨b, n, 0⟩
  | some h0 => some { h0 with broader := b, narrower := n }

/-- Per-entry step of the Dialect B `process_file`. -/
def stepB (codes : List Str) (e : EntryB) : EntryB :=
  match extract_codeB e with
  | none => { e with bfCode := some none }
  | some c =>
    if c = [] then { e with bfCode := some (some c) }
    else
      { e with
        bfCode := some (some c),
        hierarchy :=
          updateHier e.hierarchy (compute_broaderB c (simpleB codes)) (narrowerB codes c) }

/-- Dialect B `process_file` restricted to its in-memory transform. -/
def processB (es : List EntryB) : List EntryB :=
  es.map (stepB (codesOfB es))

/-! ### Lemmas about the descending truncation loops -/

theorem findSome_downFrom_eq_some {α : Type} {f : Nat → Option α} {n : Nat} {b : α}
    (h : (downFrom1 n).findSome? f = some b) :
    ∃ i, 1 ≤ i ∧ i ≤ n ∧ f i = some b ∧ ∀ j, i < j → j ≤ n → f j = none := by
  induction n with
  | zero => simp [downFrom1] at h
  | succ n ih =>
    rw [downFrom1, List.findSome?_cons] at h
    cases hf : f (n + 1) with
    | some b2 =>
      rw [hf] at h
      refine ⟨n + 1, by omega, le_refl _, ?_, ?_⟩
      · simpa [hf] using h
      · intro j h1 h2; omega
    | none =>
      rw [hf] at h
      obtain ⟨i, hi1, hi2, hi3, hi4⟩ := ih h
      refine ⟨i, hi1, by omega, hi3, ?_⟩
      intro j hj1 hj2
      rcases Nat.lt_or_ge j (n + 1) with hlt | hge
      · exact hi4 j hj1 (by omega)
      · have : j = n + 1 := by omega
        simpa [this] using hf

theorem findSome_downFrom_of_spec {α : Type} {f : Nat → Option α} {n i : Nat} {b : α}
    (h1 : 1 ≤ i) (h2 : i ≤ n) (h3 : f i = some b)
    (h4 : ∀ j, i < j → j ≤ n → f j = none) :
    (downFrom1 n).findSome? f = some b := by
  induction n with
  | zero => omega
  | succ n ih =>
    rw [downFrom1, List.findSome?_cons]
    rcases Nat.lt_or_ge i (n + 1) with hlt | hge
    · rw [h4 (n + 1) hlt (le_refl _)]
      exact ih (by omega) (fun j hj1 hj2 => h4 j hj1 (by omega))
    · have : i = n + 1 := by omega
      rw [this] at h3
      rw [h3]

theorem findSome_downFrom_eq_none {α : Type} {f : Nat → Option α} {n : Nat}
    (h : ∀ i, 1 ≤ i → i ≤ n → f i = none) :
    (downFrom1 n).findSome? f = none := by
  induction n with
  | zero => simp [downFrom1]
  | succ n ih =>
    rw [downFrom1, List.findSome?_cons, h (n + 1) (by omega) (le_refl _)]
    exact ih (fun i h1 h2 => h i h1 (by omega))

/-- The truncation searches only return members of the given point-code
set. -/
theorem truncSearchB_mem {s : Str} {S : List Str} {p : Str}
    (h : truncSearchB s S = some p) : p ∈ S := by
  obtain ⟨i, _, _, hi, _⟩ := findSome_downFrom_eq_some h
  by_cases hm : s.take i ∈ S
  · simp only [if_pos hm] at hi
    exact Option.some_injective _ hi ▸ hm
  · simp [if_neg hm] at hi

theorem range_parentA_mem {code : Str} {S : List Str} {p : Str}
    (h : range_parentA code S = some p) : p ∈ S ∧ '-' ∈ code := by
  unfold range_parentA at h
  by_cases hd : '-' ∉ code
  · simp [hd] at h
  · rw [if_neg (by simpa using hd)] at h
    refine ⟨?_, by simpa using hd⟩
    cases hs : split_rangeA code with
    | none => simp [hs] at h
    | some lr =>
      rw [hs] at h
      obtain ⟨l, r⟩ := lr
      by_cases hdot : '.' ∈ l
      · simp only [if_pos hdot] at h
        by_cases hb : splitFirstPref '.' l ∈ S
        · simp only [if_pos hb] at h
          exact Option.some_injective _ h ▸ hb
        · simp [if_neg hb] at h
      · simp only [if_neg hdot] at h
        by_cases hb : l ∈ S
        · simp only [if_pos hb] at h
          exact Option.some_injective _ h ▸ hb
        · simp [if_neg hb] at h

theorem range_parentB_mem {code : Str} {S : List Str} {p : Str}
    (h : range_parentB code S = some p) : p ∈ S ∧ hasDD code = true := by
  unfold range_parentB at h
  by_cases hd : hasDD code
  · rw [if_pos hd] at h
    refine ⟨?_, hd⟩
    cases hs : split_rangeB code with
    | none => simp [hs] at h
    | some lr =>
      rw [hs] at h
      exact truncSearchB_mem h
  · simp [hd] at h

/-- A successful Dialect A range split recovers the code by joining the
two bounds with a dash. -/
theorem split_rangeA_eq {code l r : Str} (h : split_rangeA code = some (l, r)) :
    code = l ++ '-' :: r := by
  unfold split_rangeA at h
  by_cases hd : '-' ∈ code
  · rw [if_pos hd] at h
    cases hs : splitOnChar '-' code with
    | nil => exact absurd hs (splitOnChar_ne_nil _ _)
    | cons p ps =>
      rw [hs] at h
      cases ps with
      | nil => simp at h
      | cons q qs =>
        cases qs with
        | nil =>
          simp only [Option.some.injEq, Prod.mk.injEq] at h
          have : interc '-' (splitOnChar '-' code) = code := interc_splitOnChar _ _
          rw [hs] at this
          rw [← h.1, ← h.2, ← this]
          rfl
        | cons u us => simp at h
  · simp [hd] at h

/-! ### Child-map membership lemmas -/

theorem isSimpleChildA_of_dash_parent {c d : Str} (h : '-' ∈ c) :
    isSimpleChildA c d = false := by
  simp [isSimpleChildA, h]

theorem isSimpleChildA_of_dash_child {c d : Str} (h : '-' ∈ d) :
    isSimpleChildA c d = false := by
  unfold isSimpleChildA
  by_cases h1 : '-' ∈ c <;> simp [h1, h]

/-- Range expansion only covers dash-free candidates. -/
theorem expandMemA_of_dash {rc d : Str} (h : '-' ∈ d) :
    expandMemA rc d = false := by
  unfold expandMemA
  cases hs : split_rangeA rc with
  | none => rfl
  | some lr =>
    obtain ⟨l, r⟩ := lr
    by_cases h1 : '.' ∉ l ∧ '.' ∉ r
    · simp only [if_pos h1]
      cases pyInt l <;> cases pyInt r <;> simp [h]
    · simp only [if_neg h1]
      by_cases h2 : '.' ∈ l ∧ '.' ∈ r
      · simp only [if_pos h2]
        by_cases h3 : rsplitPref '.' l ≠ rsplitPref '.' r
        · simp [h3]
        · simp only [if_neg h3]
          cases pyInt (lastSeg '.' l) <;> cases pyInt (lastSeg '.' r) <;>
            simp [h]
      · simp [h2]

theorem isSimpleChildB_of_dd_child {c d : Str} (h : hasDD d = true) :
    isSimpleChildB c d = false := by
  unfold isSimpleChildB
  by_cases h1 : hasDD c
  · simp [h1]
  · by_cases h2 : d = c
    · subst h2; simp [h] at h1
    · simp [h1, h2, h]

/-- Dialect B range expansion only covers doubled-dash-free candidates. -/
theorem expandMemB_of_dd {rc d : Str} (h : hasDD d = true) :
    expandMemB rc d = false := by
  unfold expandMemB
  cases hs : split_rangeB rc with
  | none => rfl
  | some lr =>
    obtain ⟨l, r⟩ := lr
    rcases hl : pyInt (lstripDash l) with _ | li <;>
      rcases hr : pyInt (lstripDash r) with _ | ri <;>
      simp [hl, hr, h]

theorem mem_simpleA {codes : List Str} {x : Str} (h : x ∈ simpleA codes) :
    '-' ∉ x := by
  have := (List.mem_filter.mp h).2
  simpa using this

theorem mem_simpleB {codes : List Str} {x : Str} (h : x ∈ simpleB codes) :
    hasDD x = false := by
  have := (List.mem_filter.mp h).2
  simpa using this

theorem isSimpleChildA_irrefl (c : Str) : isSimpleChildA c c = false := by
  unfold isSimpleChildA
  by_cases h1 : '-' ∈ c
  · simp [h1]
  · have hne : c.take (c.length + 1) ≠ c ++ ['.'] := by
      intro h
      have := congrArg List.length h
      simp [List.length_take] at this
    simp [h1, hne]

theorem isSimpleChildB_irrefl (c : Str) : isSimpleChildB c c = false := by
  unfold isSimpleChildB
  by_cases h1 : hasDD c <;> simp [h1]

/-- C8: no code of either dialect ever appears in its own narrower set:
immediate children strictly extend their parent, range expansion covers
only separator-free codes while every range code contains the separator,
and attachment parents are always simple codes. -/
theorem c8_no_self_child (codes : List Str) (c : Str) :
    c ∉ narrowerA codes c ∧ c ∉ narrowerB codes c := by
  constructor
  · intro hmem
    rw [narrowerA, List.mem_insertionSort] at hmem
    have hc := (List.mem_filter.mp hmem).2
    rw [childMemA] at hc
    simp only [Bool.or_eq_true] at hc
    rcases hc with (hc | hc) | hc
    · rw [isSimpleChildA_irrefl] at hc
      exact Bool.false_ne_true hc
    · by_cases hd : '-' ∈ c
      · rw [if_pos hd, expandMemA_of_dash hd] at hc
        exact Bool.false_ne_true hc
      · rw [if_neg hd] at hc
        exact Bool.false_ne_true hc
    · by_cases hrp : range_parentA c (simpleA codes) = some c
      · obtain ⟨hmem2, hdash⟩ := range_parentA_mem hrp
        exact mem_simpleA hmem2 hdash
      · rw [if_neg hrp] at hc
        exact Bool.false_ne_true hc
  · intro hmem
    rw [narrowerB, List.mem_insertionSort] at hmem
    have hc := (List.mem_filter.mp hmem).2
    rw [childMemB] at hc
    simp only [Bool.or_eq_true] at hc
    rcases hc with (hc | hc) | hc
    · rw [isSimpleChildB_irrefl] at hc
      exact Bool.false_ne_true hc
    · by_cases hd : hasDD c
      · rw [if_pos hd, expandMemB_of_dd hd] at hc
        exact Bool.false_ne_true hc
      · rw [if_neg hd] at hc
        exact Bool.false_ne_true hc
    · by_cases hrp : range_parentB c (simpleB codes) = some c
      · obtain ⟨hmem2, hdd⟩ := range_parentB_mem hrp
        rw [mem_simpleB hmem2] at hdd
        exact Bool.false_ne_true hdd
      · rw [if_neg hrp] at hc
        exact Bool.false_ne_true hc

theorem expandMemA_of_split_none {rc d : Str} (h : split_rangeA rc = none) :
    expandMemA rc d = false := by
  unfold expandMemA
  rw [h]

/-- C10: a Dialect A code containing a dash that does not split into
exactly two parts is classified as a range but becomes an isolated node:
empty narrower set, null broader, no attachment parent, and it never
appears in any other code's narrower set. -/
theorem c10_malformed_range (codes : List Str) (c : Str)
    (hdash : '-' ∈ c) (hsplit : split_rangeA c = none) :
    narrowerA codes c = [] ∧
    compute_broaderA c (simpleA codes) = none ∧
    range_parentA c (simpleA codes) = none ∧
    ∀ d, c ∉ narrowerA codes d := by
  have hrpc : range_parentA c (simpleA codes) = none := by
    unfold range_parentA
    rw [if_neg (by simpa using hdash), hsplit]
  refine ⟨?_, ?_, hrpc, ?_⟩
  · have hchild : ∀ d, childMemA codes c d = false := by
      intro d
      rw [childMemA, isSimpleChildA_of_dash_parent hdash, if_pos hdash,
        expandMemA_of_split_none hsplit]
      have hne : range_parentA d (simpleA codes) ≠ some c := by
        intro hrp
        exact mem_simpleA (range_parentA_mem hrp).1 hdash
      rw [if_neg hne]
      rfl
    have hfil : codes.filter (fun d => childMemA codes c d) = [] := by
      rw [List.filter_eq_nil_iff]
      intro d _
      simp [hchild d]
    rw [narrowerA, hfil]
    rfl
  · unfold compute_broaderA
    rw [if_pos hdash]
    by_cases hdot : '.' ∈ c <;> simp [hsplit, hdot]
  · intro d hmem
    rw [narrowerA, List.mem_insertionSort] at hmem
    have hc := (List.mem_filter.mp hmem).2
    rw [childMemA, isSimpleChildA_of_dash_child hdash] at hc
    simp only [Bool.or_eq_true] at hc
    rcases hc with (hc | hc) | hc
    · exact Bool.false_ne_true hc
    · by_cases hd : '-' ∈ d
      · rw [if_pos hd, expandMemA_of_dash hdash] at hc
        exact Bool.false_ne_true hc
      · rw [if_neg hd] at hc
        exact Bool.false_ne_true hc
    · rw [if_neg (by rw [hrpc]; exact fun h => Option.noConfusion h)] at hc
      exact Bool.false_ne_true hc

/-- C5: on the Dialect A index `{026, 026.0001, 026.0002, 026.0003,
026.0001-026.0005}` the engine gives the structured range the narrower
set `[026.0001, 026.0002, 026.0003]` (the absent codes 026.0004 and
026.0005 are excluded) and the broader code `026`. -/
theorem c5_structured_range_example :
    narrowerA [str "026", str "026.0001", str "026.0002", str "026.0003",
        str "026.0001-026.0005"] (str "026.0001-026.0005") =
      [str "026.0001", str "026.0002", str "026.0003"] ∧
    compute_broaderA (str "026.0001-026.0005")
        (simpleA [str "026", str "026.0001", str "026.0002", str "026.0003",
          str "026.0001-026.0005"]) = some (str "026") := by
  constructor <;> rfl

/-! ### Idempotence of the per-file transforms -/

theorem extract_code_stepA (C : List Str) (e : EntryA) :
    extract_code (stepA C e) = extract_code e := by
  obtain ⟨iv, nt, bf, hi, ex⟩ := e
  have key : ∀ x y, extract_code ⟨iv, nt, x, y, ex⟩ = extract_code ⟨iv, nt, bf, hi, ex⟩ :=
    fun x y => rfl
  by_cases h : extract_code ⟨iv, nt, bf, hi, ex⟩ = [] <;> simp [stepA, key, h]

theorem codesOf_processA (es : List EntryA) : codesOf (processA es) = codesOf es := by
  unfold codesOf processA
  rw [List.map_map]
  have : es.map (extract_code ∘ stepA (codesOf es)) = es.map extract_code :=
    List.map_congr_left (fun a _ => extract_code_stepA _ a)
  rw [this]

theorem stepA_idem (C : List Str) (e : EntryA) : stepA C (stepA C e) = stepA C e := by
  obtain ⟨iv, nt, bf, hi, ex⟩ := e
  have key : ∀ x y, extract_code ⟨iv, nt, x, y, ex⟩ = extract_code ⟨iv, nt, bf, hi, ex⟩ :=
    fun x y => rfl
  by_cases h : extract_code ⟨iv, nt, bf, hi, ex⟩ = [] <;> simp [stepA, key, h]

theorem updateHier_idem (h : Option HierB) (b : Option Str) (n : List Str) :
    updateHier (updateHier h b n) b n = updateHier h b n := by
  cases h <;> rfl

theorem extract_code_stepB (C : List Str) (e : EntryB) :
    extract_codeB (stepB C e) = extract_codeB e := by
  obtain ⟨iv, nt, bf, hi, ex⟩ := e
  have key : ∀ x y, extract_codeB ⟨iv, nt, x, y, ex⟩ = extract_codeB ⟨iv, nt, bf, hi, ex⟩ :=
    fun x y => rfl
  cases hco : extract_codeB ⟨iv, nt, bf, hi, ex⟩ with
  | none => simp [stepB, key, hco]
  | some c => by_cases h : c = [] <;> simp [stepB, key, hco, h]

theorem codesOfB_processB (es : List EntryB) : codesOfB (processB es) = codesOfB es := by
  unfold codesOfB processB
  rw [List.filterMap_map]
  have key : ∀ (C : List Str) (l : List EntryB),
      l.filterMap (extract_codeB ∘ stepB C) = l.filterMap extract_codeB := by
    intro C l
    induction l with
    | nil => rfl
    | cons a l ih =>
      simp only [List.filterMap_cons, Function.comp_apply, extract_code_stepB]
      cases extract_codeB a <;> simp [ih]
  rw [key]

theorem stepB_idem (C : List Str) (e : EntryB) : stepB C (stepB C e) = stepB C e := by
  obtain ⟨iv, nt, bf, hi, ex⟩ := e
  have key : ∀ x y, extract_codeB ⟨iv, nt, x, y, ex⟩ = extract_codeB ⟨iv, nt, bf, hi, ex⟩ :=
    fun x y => rfl
  cases hco : extract_codeB ⟨iv, nt, bf, hi, ex⟩ with
  | none => simp [stepB, key, hco]
  | some c => by_cases h : c = [] <;> simp [stepB, key, hco, h, updateHier_idem]

/-- C6: both per-file transforms are idempotent: re-running the engine on
its own output (extraction reads only the original identifying fields)
reproduces every `bfCode` and hierarchy field exactly, so in particular
all broader and narrower values are unchanged on a second pass. -/
theorem c6_idempotent :
    (∀ es : List EntryA, processA (processA es) = processA es) ∧
    (∀ es : List EntryB, processB (processB es) = processB es) := by
  constructor
  · intro es
    show (processA es).map (stepA (codesOf (processA es))) = processA es
    rw [codesOf_processA]
    show (es.map (stepA (codesOf es))).map (stepA (codesOf es)) = processA es
    rw [List.map_map]
    exact List.map_congr_left (fun a _ => stepA_idem _ a)
  · intro es
    show (processB es).map (stepB (codesOfB (processB es))) = processB es
    rw [codesOfB_processB]
    show (es.map (stepB (codesOfB es))).map (stepB (codesOfB es)) = processB es
    rw [List.map_map]
    exact List.map_congr_left (fun a _ => stepB_idem _ a)

/-! ### Shared-code consistency and failed extraction -/

theorem updateHier_broader (h : Option HierB) (b : Option Str) (n : List Str) :
    Option.map HierB.broader (updateHier h b n) = some b := by
  cases h <;> rfl

theorem updateHier_narrower (h : Option HierB) (b : Option Str) (n : List Str) :
    Option.map HierB.narrower (updateHier h b n) = some n := by
  cases h <;> rfl

theorem get_processA (es : List EntryA) (i : Nat) (h1 : i < es.length)
    (h2 : i < (processA es).length) :
    (processA es).get ⟨i, h2⟩ = stepA (codesOf es) (es.get ⟨i, h1⟩) := by
  simp [processA, List.get_eq_getElem, List.getElem_map]

theorem get_processB (es : List EntryB) (i : Nat) (h1 : i < es.length)
    (h2 : i < (processB es).length) :
    (processB es).get ⟨i, h2⟩ = stepB (codesOfB es) (es.get ⟨i, h1⟩) := by
  simp [processB, List.get_eq_getElem, List.getElem_map]

/-- C9: entries sharing the same extracted code receive identical
hierarchy output: in Dialect A the whole hierarchy record coincides, and
in Dialect B the broader value and the sorted duplicate-free narrower
sequence coincide (the tables script preserves unrelated keys of a
pre-existing hierarchy dict, which only the two hierarchy keys must
agree on). -/
theorem c9_shared_code_same_hierarchy :
    (∀ (es : List EntryA) (i j : Nat) (h1 : i < es.length) (h2 : j < es.length)
        (h3 : i < (processA es).length) (h4 : j < (processA es).length),
      extract_code (es.get ⟨i, h1⟩) = extract_code (es.get ⟨j, h2⟩) →
      extract_code (es.get ⟨i, h1⟩) ≠ [] →
      ((processA es).get ⟨i, h3⟩).hierarchy = ((processA es).get ⟨j, h4⟩).hierarchy) ∧
    (∀ (es : List EntryB) (i j : Nat) (h1 : i < es.length) (h2 : j < es.length)
        (h3 : i < (processB es).length) (h4 : j < (processB es).length) (c : Str),
      extract_codeB (es.get ⟨i, h1⟩) = some c →
      extract_codeB (es.get ⟨j, h2⟩) = some c →
      c ≠ [] →
      Option.map HierB.broader (((processB es).get ⟨i, h3⟩).hierarchy) =
        Option.map HierB.broader (((processB es).get ⟨j, h4⟩).hierarchy) ∧
      Option.map HierB.narrower (((processB es).get ⟨i, h3⟩).hierarchy) =
        Option.map HierB.narrower (((processB es).get ⟨j, h4⟩).hierarchy)) := by
  constructor
  · intro es i j h1 h2 h3 h4 heq hne
    rw [get_processA es i h1 h3, get_processA es j h2 h4]
    simp only [List.get_eq_getElem] at heq hne
    have hnej : extract_code es[j] ≠ [] := heq ▸ hne
    simp only [List.get_eq_getElem, stepA, heq, if_neg hnej]
  · intro es i j h1 h2 h3 h4 c hci hcj hne
    rw [get_processB es i h1 h3, get_processB es j h2 h4]
    simp only [List.get_eq_getElem] at hci hcj
    simp only [List.get_eq_getElem, stepB, hci, hcj, if_neg hne]
    constructor <;> simp [updateHier_broader, updateHier_narrower]

/-- Witness for C9 at a concrete pair of duplicate entries per dialect. -/
theorem c9_shared_code_same_hierarchy_witness :
    ((processA [⟨none, some (str "600"), none, none, 0⟩,
        ⟨none, some (str "600"), none, none, 1⟩]).get
          ⟨0, by simp [processA]⟩).hierarchy =
      ((processA [⟨none, some (str "600"), none, none, 0⟩,
        ⟨none, some (str "600"), none, none, 1⟩]).get
          ⟨1, by simp [processA]⟩).hierarchy ∧
    Option.map HierB.broader
        (((processB [⟨[], some (str "-04"), none, none, 0⟩,
          ⟨[], some (str "-04"), none, some ⟨some [], [], 7⟩, 1⟩]).get
            ⟨0, by simp [processB]⟩).hierarchy) =
      Option.map HierB.broader
        (((processB [⟨[], some (str "-04"), none, none, 0⟩,
          ⟨[], some (str "-04"), none, some ⟨some [], [], 7⟩, 1⟩]).get
            ⟨1, by simp [processB]⟩).hierarchy) :=
  ⟨c9_shared_code_same_hierarchy.1
      [⟨none, some (str "600"), none, none, 0⟩, ⟨none, some (str "600"), none, none, 1⟩]
      0 1 (by simp) (by simp) (by simp [processA]) (by simp [processA]) rfl (by decide),
    (c9_shared_code_same_hierarchy.2
      [⟨[], some (str "-04"), none, none, 0⟩,
        ⟨[], some (str "-04"), none, some ⟨some [], [], 7⟩, 1⟩]
      0 1 (by simp) (by simp) (by simp [processB]) (by simp [processB]) (str "-04")
      (by decide) (by decide) (by decide)).1⟩

/-- C2 counterexample: an entry whose identifying fields are absent is
indeed excluded from the code index and receives no hierarchy field, but
it does not remain unmodified: the script stamps `bfCode` (with the empty
extraction result) onto it. -/
theorem c2_counterexample :
    processA [(⟨none, none, none, none, 0⟩ : EntryA)] ≠
      [(⟨none, none, none, none, 0⟩ : EntryA)] ∧
    (processA [(⟨none, none, none, none, 0⟩ : EntryA)]).map EntryA.bfCode =
      [some []] ∧
    (processA [(⟨none, none, none, none, 0⟩ : EntryA)]).map EntryA.hierarchy =
      [none] := by
  refine ⟨?_, rfl, rfl⟩
  decide

/-- C2 amended: an entry with a failed code extraction is excluded from
the code index and its hierarchy field is untouched, and it stays at its
position in the output sequence with every field except `bfCode`
unchanged — but `bfCode` is set (to the empty string in Dialect A, and to
the raw falsy extraction result in Dialect B). -/
theorem c2_failed_extraction_amended :
    (∀ (es : List EntryA) (i : Nat) (h1 : i < es.length)
        (h2 : i < (processA es).length),
      extract_code (es.get ⟨i, h1⟩) = [] →
      (processA es).get ⟨i, h2⟩ = { es.get ⟨i, h1⟩ with bfCode := some [] } ∧
      [] ∉ codesOf es) ∧
    (∀ (es : List EntryB) (i : Nat) (h1 : i < es.length)
        (h2 : i < (processB es).length) (co : Option Str),
      extract_codeB (es.get ⟨i, h1⟩) = co → (co = none ∨ co = some []) →
      (processB es).get ⟨i, h2⟩ = { es.get ⟨i, h1⟩ with bfCode := some co }) := by
  constructor
  · intro es i h1 h2 hx
    simp only [List.get_eq_getElem] at hx
    refine ⟨?_, ?_⟩
    · rw [get_processA es i h1 h2]
      simp [List.get_eq_getElem, stepA, hx]
    · intro hmem
      rw [codesOf, List.mem_dedup] at hmem
      have := (List.mem_filter.mp hmem).2
      simp at this
  · intro es i h1 h2 co hx hco
    simp only [List.get_eq_getElem] at hx
    rw [get_processB es i h1 h2]
    rcases hco with h | h <;> subst h <;>
      simp [List.get_eq_getElem, stepB, hx]

/-- Witness for C2 at one concrete failing entry per dialect. -/
theorem c2_failed_extraction_amended_witness :
    ((processA [(⟨none, none, none, none, 0⟩ : EntryA)]).get
        ⟨0, by simp [processA]⟩ =
      { (⟨none, none, none, none, 0⟩ : EntryA) with bfCode := some [] } ∧
      [] ∉ codesOf [(⟨none, none, none, none, 0⟩ : EntryA)]) ∧
    (processB [(⟨[], none, none, none, 0⟩ : EntryB)]).get
        ⟨0, by simp [processB]⟩ =
      { (⟨[], none, none, none, 0⟩ : EntryB) with bfCode := some none } :=
  ⟨c2_failed_extraction_amended.1 [⟨none, none, none, none, 0⟩] 0 (by simp)
      (by simp [processA]) rfl,
    c2_failed_extraction_amended.2 [⟨[], none, none, none, 0⟩] 0 (by simp)
      (by simp [processB]) none rfl (Or.inl rfl)⟩

/-! ### Strictly shorter parents -/

/-- C7: in both dialects a non-null broader value of a Point code is a
strictly shorter string than the code, hence never equal to it: Dialect A
parents drop at least one dot segment, Dialect B parents drop at least
one trailing character. -/
theorem c7_parent_strictly_shorter :
    (∀ (c : Str) (S : List Str) (p : Str), '-' ∉ c →
      compute_broaderA c S = some p → p.length < c.length ∧ p ≠ c) ∧
    (∀ (c : Str) (S : List Str) (p : Str), hasDD c = false →
      compute_broaderB c S = some p → p.length < c.length ∧ p ≠ c) := by
  constructor
  · intro c S p hdash h
    unfold compute_broaderA at h
    rw [if_neg hdash] at h
    by_cases hdot : '.' ∈ c
    · rw [if_neg (not_not_intro hdot)] at h
      obtain ⟨i, hi1, hi2, hi3, _⟩ := findSome_downFrom_eq_some h
      by_cases hm : interc '.' ((splitOnChar '.' c).take i) ∈ S
      · rw [if_pos hm] at hi3
        have hp : p = interc '.' ((splitOnChar '.' c).take i) :=
          (Option.some_injective _ hi3).symm
        have hn2 : 2 ≤ (splitOnChar '.' c).length := two_le_splitOnChar_of_mem hdot
        have hti : ((splitOnChar '.' c).take i).length = i := by
          rw [List.length_take]
          omega
        have htake : (splitOnChar '.' c).take i ≠ [] := by
          intro hnil
          rw [hnil] at hti
          simp at hti
          omega
        have hdi : ((splitOnChar '.' c).drop i).length =
            (splitOnChar '.' c).length - i := List.length_drop i _
        have hdrop : (splitOnChar '.' c).drop i ≠ [] := by
          intro hnil
          rw [hnil] at hdi
          simp at hdi
          omega
        have hlen : (interc '.' ((splitOnChar '.' c).take i)).length <
            (interc '.' (splitOnChar '.' c)).length := by
          conv_rhs => rw [← List.take_append_drop i (splitOnChar '.' c)]
          exact length_interc_lt '.' htake hdrop
        rw [interc_splitOnChar] at hlen
        rw [← hp] at hlen
        exact ⟨hlen, fun hpc => absurd (hpc ▸ hlen) (lt_irrefl _)⟩
      · rw [if_neg hm] at hi3
        exact Option.noConfusion hi3
    · rw [if_pos hdot] at h
      exact Option.noConfusion h
  · intro c S p hdd h
    unfold compute_broaderB at h
    rw [if_neg (by simp [hdd])] at h
    by_cases hlen : c.length ≤ 1
    · rw [if_pos hlen] at h
      exact Option.noConfusion h
    · rw [if_neg hlen] at h
      unfold truncSearchB at h
      obtain ⟨i, hi1, hi2, hi3, _⟩ := findSome_downFrom_eq_some h
      by_cases hm : c.take i ∈ S
      · rw [if_pos hm] at hi3
        have hp : p = c.take i := (Option.some_injective _ hi3).symm
        have hti : (c.take i).length = i := by
          rw [List.length_take]
          omega
        have hplen : p.length < c.length := by
          rw [hp, hti]
          omega
        exact ⟨hplen, fun hpc => absurd (hpc ▸ hplen) (lt_irrefl _)⟩
      · rw [if_neg hm] at hi3
        exact Option.noConfusion hi3


/-- Witness for C7 at one concrete parent lookup per dialect. -/
theorem c7_parent_strictly_shorter_witness :
    ((str "600").length < (str "600.1").length ∧ str "600" ≠ str "600.1") ∧
    ((str "-09").length < (str "-092").length ∧ str "-09" ≠ str "-092") :=
  ⟨c7_parent_strictly_shorter.1 (str "600.1") [str "600"] (str "600")
      (by decide) (by decide),
    c7_parent_strictly_shorter.2 (str "-092") [str "-09"] (str "-09")
      (by decide) (by decide)⟩

/-! ### Dialect B point-code parent search -/

/-- C4 counterexample: on an index containing the one-character code `-`,
the Dialect B parent search for the Point code `-09` returns the length-1
prefix `-`, so a candidate prefix shorter than 2 characters can be
returned, contrary to the claim. -/
theorem c4_counterexample :
    compute_broaderB (str "-09") [str "-"] = some (str "-") ∧
    (str "-").length < 2 := by
  constructor <;> decide


/-- C4 amended: for a Dialect B Point code, `compute_broader` returns the
longest proper non-empty prefix of the code present in the index
(truncating one trailing character at a time, longest first), and null
exactly when no proper non-empty prefix is present; the minimum candidate
length is 1, not 2 as claimed. -/
theorem c4_point_parent_amended (code : Str) (S : List Str)
    (hdd : hasDD code = false) (p : Str) :
    compute_broaderB code S = some p ↔
      (p ≠ [] ∧ p ≠ code ∧ p = code.take p.length ∧ p ∈ S ∧
        ∀ q ∈ S, q ≠ code → q = code.take q.length → q.length ≤ p.length) := by
  unfold compute_broaderB
  rw [if_neg (by simp [hdd])]
  constructor
  · intro h
    by_cases hlen : code.length ≤ 1
    · rw [if_pos hlen] at h
      exact Option.noConfusion h
    · rw [if_neg hlen] at h
      unfold truncSearchB at h
      obtain ⟨i, hi1, hi2, hi3, hi4⟩ := findSome_downFrom_eq_some h
      by_cases hm : code.take i ∈ S
      · rw [if_pos hm] at hi3
        have hp : p = code.take i := (Option.some_injective _ hi3).symm
        have hpl : p.length = i := by
          rw [hp, List.length_take]
          omega
        refine ⟨?_, ?_, ?_, hp ▸ hm, ?_⟩
        · intro hnil
          rw [hnil] at hpl
          simp at hpl
          omega
        · intro hpc
          have := congrArg List.length hpc
          rw [hpl] at this
          omega
        · rw [hpl, hp]
        · intro q hq hqc hqt
          by_contra hgt
          push_neg at hgt
          rw [hpl] at hgt
          have hql : q.length ≤ code.length := by
            have := congrArg List.length hqt
            rw [List.length_take] at this
            omega
          have hqlt : q.length ≤ code.length - 1 := by
            rcases Nat.lt_or_ge q.length code.length with h1 | h1
            · omega
            · exfalso
              have heq : q.length = code.length := by omega
              rw [heq, List.take_length] at hqt
              exact hqc hqt
          have hnone := hi4 q.length hgt (by omega)
          by_cases hmem : code.take q.length ∈ S
          · rw [if_pos hmem] at hnone
            exact Option.noConfusion hnone
          · exact hmem (hqt ▸ hq)
      · rw [if_neg hm] at hi3
        exact Option.noConfusion hi3
  · rintro ⟨hp0, hpc, hpt, hpS, hmax⟩
    have hpl_le : p.length ≤ code.length := by
      have := congrArg List.length hpt
      rw [List.length_take] at this
      omega
    have hplt : p.length < code.length := by
      rcases Nat.lt_or_ge p.length code.length with h1 | h1
      · exact h1
      · exfalso
        have heq : p.length = code.length := by omega
        rw [heq, List.take_length] at hpt
        exact hpc hpt
    have hp1 : 1 ≤ p.length := by
      cases p with
      | nil => exact absurd rfl hp0
      | cons a as => simp
    rw [if_neg (by omega)]
    unfold truncSearchB
    refine findSome_downFrom_of_spec hp1 (by omega) ?_ ?_
    · rw [← hpt, if_pos hpS]
    · intro j hj1 hj2
      have hjl : (code.take j).length = j := by
        rw [List.length_take]
        omega
      by_cases hmem : code.take j ∈ S
      · exfalso
        have hle := hmax (code.take j) hmem ?_ ?_
        · rw [hjl] at hle
          omega
        · intro hceq
          have := congrArg List.length hceq
          rw [hjl] at this
          omega
        · rw [hjl]
      · rw [if_neg hmem]

/-- Witness for C4 at a concrete code and index. -/
theorem c4_point_parent_amended_witness :
    compute_broaderB (str "-092") [str "-09", str "-0"] = some (str "-09") ↔
      (str "-09" ≠ [] ∧ str "-09" ≠ str "-092" ∧
        str "-09" = (str "-092").take (str "-09").length ∧
        str "-09" ∈ [str "-09", str "-0"] ∧
        ∀ q ∈ [str "-09", str "-0"], q ≠ str "-092" →
          q = (str "-092").take q.length → q.length ≤ (str "-09").length) :=
  c4_point_parent_amended (str "-092") [str "-09", str "-0"] (by decide) (str "-09")

/-! ### Range parent resolution and attachment -/

/-- Characterization of Dialect A `compute_broader` on a successfully
split range code: try the left bound with its last segment removed, then
fall back to the left bound itself (whether or not it is dotted), else
null. -/
theorem compute_broaderA_range (code : Str) (S : List Str) (l r : Str)
    (hs : split_rangeA code = some (l, r)) :
    compute_broaderA code S =
      (if l ≠ [] ∧ '.' ∈ l ∧ rsplitPref '.' l ∈ S then some (rsplitPref '.' l)
       else if l ≠ [] ∧ l ∈ S then some l else none) := by
  have hcode : code = l ++ '-' :: r := split_rangeA_eq hs
  subst hcode
  have hdash : '-' ∈ l ++ '-' :: r := by simp
  simp only [compute_broaderA, if_pos hdash, hs]
  by_cases hdotl : '.' ∈ l
  · have hdotc : '.' ∈ l ++ '-' :: r := List.mem_append_left _ hdotl
    have hlne : l ≠ [] := fun h => by rw [h] at hdotl; simp at hdotl
    simp only [if_pos hdotc,
      if_pos (show l ≠ [] ∧ '.' ∈ l from ⟨hlne, hdotl⟩)]
    by_cases hrp : rsplitPref '.' l ∈ S
    · simp only [if_pos hrp,
        if_pos (show l ≠ [] ∧ '.' ∈ l ∧ rsplitPref '.' l ∈ S from ⟨hlne, hdotl, hrp⟩)]
    · simp only [if_neg hrp,
        if_neg (show ¬(l ≠ [] ∧ '.' ∈ l ∧ rsplitPref '.' l ∈ S) from fun h => hrp h.2.2)]
  · have h1 : ¬(l ≠ [] ∧ '.' ∈ l) := fun h => hdotl h.2
    have h2 : ¬(l ≠ [] ∧ '.' ∈ l ∧ rsplitPref '.' l ∈ S) := fun h => hdotl h.2.1
    by_cases hdotc : '.' ∈ l ++ '-' :: r
    · simp only [if_pos hdotc, if_neg h1, if_neg h2]
    · simp only [if_neg hdotc, if_neg h2]

/-- Characterization of Dialect A `range_parent` on a successfully split
range code: for a dotted left bound the first segment, otherwise the left
bound itself, each only when present among the simple codes. -/
theorem range_parentA_range (code : Str) (S : List Str) (l r : Str)
    (hs : split_rangeA code = some (l, r)) :
    range_parentA code S =
      (if '.' ∈ l then
        (if splitFirstPref '.' l ∈ S then some (splitFirstPref '.' l) else none)
       else if l ∈ S then some l else none) := by
  have hdash : '-' ∈ code := by rw [split_rangeA_eq hs]; simp
  unfold range_parentA
  rw [if_neg (not_not_intro hdash), hs]

/-- C1 counterexample: for the Dialect A range `026.0001-026.0005` over
an index containing only the Point code `026.0001`, the attachment parent
(`range_parent`) is null while the broader value (`compute_broader`)
falls back to the left bound — the two rules disagree. -/
theorem c1_counterexample :
    range_parentA (str "026.0001-026.0005") [str "026.0001"] = none ∧
    compute_broaderA (str "026.0001-026.0005") [str "026.0001"] =
      some (str "026.0001") := by
  constructor <;> decide

/-- C1 amended: the attachment parent and the broader value of a Range
code agree for every Dialect B range, and for every Dialect A range whose
left bound contains no dot (the index never holds an empty code); for a
dotted left bound the two rules can differ, since `compute_broader` drops
the last segment and falls back to the whole left bound while
`range_parent` keeps only the first segment. -/
theorem c1_attachment_agreement_amended :
    (∀ (code : Str) (S : List Str) (l r : Str), split_rangeA code = some (l, r) →
      '.' ∉ l → [] ∉ S → range_parentA code S = compute_broaderA code S) ∧
    (∀ (code : Str) (S : List Str), hasDD code = true →
      range_parentB code S = compute_broaderB code S) := by
  constructor
  · intro code S l r hs hnd hne
    rw [range_parentA_range code S l r hs, compute_broaderA_range code S l r hs]
    by_cases hl : l = []
    · subst hl
      simp [hne]
    · by_cases hls : l ∈ S <;> simp [hnd, hl, hls]
  · intro code S hdd
    unfold range_parentB compute_broaderB
    rw [if_pos hdd, if_pos hdd]
    cases hs : split_rangeB code with
    | none => rfl
    | some lr =>
      obtain ⟨l, r⟩ := lr
      show truncSearchB l S = if l ≠ [] then truncSearchB l S else none
      by_cases hl : l = []
      · subst hl
        rw [if_neg (fun h => h rfl)]
        rfl
      · rw [if_pos hl]

/-- Witness for C1 at one concrete range per dialect. -/
theorem c1_attachment_agreement_amended_witness :
    range_parentA (str "004-006") [str "004"] =
      compute_broaderA (str "004-006") [str "004"] ∧
    range_parentB (str "-001--003") [str "-001"] =
      compute_broaderB (str "-001--003") [str "-001"] :=
  ⟨c1_attachment_agreement_amended.1 (str "004-006") [str "004"]
      (str "004") (str "006") (by decide) (by decide) (by decide),
    c1_attachment_agreement_amended.2 (str "-001--003") [str "-001"] (by decide)⟩

/-- C3 counterexample: for the range `4.5-4.9` over the index containing
only `4.5`, the left bound is dotted and its truncation `4` is not a
Point code, yet the broader value is not null: the code falls back to the
left bound itself although the claim restricts that fallback to
unstructured left bounds. -/
theorem c3_counterexample :
    ('.' ∈ str "4.5") ∧ (str "4" ∉ [str "4.5"]) ∧
    compute_broaderA (str "4.5-4.9") [str "4.5"] = some (str "4.5") := by
  refine ⟨by decide, by decide, by decide⟩

/-- C3 amended: for a Dialect A range with left bound `l`, if `l` is
dotted (uniquely written `a ++ [sep] ++ b` with a dot-free last segment
`b`), broader is `a` when `a` is a Point code; otherwise — for dotted and
undotted left bounds alike — broader falls back to the left bound itself
when it is a non-empty Point code; otherwise broader is null. -/
theorem c3_range_broader_amended (code : Str) (S : List Str) (l r : Str)
    (hs : split_rangeA code = some (l, r)) :
    (∀ a b : Str, l = a ++ '.' :: b → '.' ∉ b →
      compute_broaderA code S =
        (if a ∈ S then some a else if l ∈ S then some l else none)) ∧
    ('.' ∉ l →
      compute_broaderA code S = (if l ≠ [] ∧ l ∈ S then some l else none)) := by
  constructor
  · intro a b hl hb
    have hdotl : '.' ∈ l := by rw [hl]; simp
    have hlne : l ≠ [] := by rw [hl]; simp
    have hrs : rsplitPref '.' l = a := by rw [hl]; exact rsplitPref_last_split hb
    rw [compute_broaderA_range code S l r hs, hrs]
    by_cases ha : a ∈ S
    · simp [ha, hlne, hdotl]
    · by_cases hls : l ∈ S <;> simp [ha, hls, hlne, hdotl]
  · intro hnd
    rw [compute_broaderA_range code S l r hs]
    simp [hnd]

/-- Witness for C3 at a concrete structured range. -/
theorem c3_range_broader_amended_witness :
    compute_broaderA (str "026.0001-026.0005") [str "026"] =
      (if str "026" ∈ [str "026"] then some (str "026")
       else if str "026.0001" ∈ [str "026"] then some (str "026.0001")
       else none) :=
  (c3_range_broader_amended (str "026.0001-026.0005") [str "026"]
      (str "026.0001") (str "026.0005") (by decide)).1
    (str "026") (str "0001") (by decide) (by decide)

/-- Witness for C10 at a concrete two-dash code. -/
theorem c10_malformed_range_witness :
    narrowerA [str "020", str "020-021-022"] (str "020-021-022") = [] ∧
    compute_broaderA (str "020-021-022")
      (simpleA [str "020", str "020-021-022"]) = none ∧
    range_parentA (str "020-021-022")
      (simpleA [str "020", str "020-021-022"]) = none ∧
    str "020-021-022" ∉ narrowerA [str "020", str "020-021-022"] (str "020") :=
  have h := c10_malformed_range [str "020", str "020-021-022"]
    (str "020-021-022") (by decide) (by decide)
  ⟨h.1, h.2.1, h.2.2.1, h.2.2.2 (str "020")⟩
